import Mathlib

/-!
Verification of the d-international admin panel (src/src/App.js).

The file shallow-embeds the logic-bearing pieces of the code:
the product-form image-list editor (merge, reorder, submit-time
normalization, local-file upload), the session/auth state transitions
(`login`, `logout`, `fetchUser`), and the numeric-input coercion
(`parseFloat(value) || 0`).  JS strings are Lean `String`s; a JS array
cell that may hold `undefined` is `Option String` (`none` = undefined);
JS numbers are modelled exactly (`ℚ` plus NaN and infinities) rather
than as IEEE floats.
-/

namespace DAdmin

/-- JS whitespace, per the `WhiteSpace`/`LineTerminator` productions used by
`String.prototype.trim`: tab, LF, VT, FF, CR, space, NBSP, BOM, and the
Unicode space separators. -/
def isJsWs (c : Char) : Bool :=
  c == ' ' || c == '\t' || c == '\n' || c == '\r' || c == '\x0b' || c == '\x0c' ||
  c == '\u00A0' || c == '\uFEFF' || c == '\u1680' ||
  ('\u2000' ≤ c && c ≤ '\u200A') ||
  c == '\u2028' || c == '\u2029' || c == '\u202F' || c == '\u205F' || c == '\u3000'

/-- Drop trailing JS whitespace from a character list (`trimEnd`). -/
def trimEndList (l : List Char) : List Char :=
  (l.reverse.dropWhile isJsWs).reverse

/-- Drop leading and trailing JS whitespace (`trim`) on character lists. -/
def trimList (l : List Char) : List Char :=
  trimEndList (l.dropWhile isJsWs)

/-- JS `String.prototype.trim`. -/
def jsTrim (s : String) : String :=
  ⟨trimList s.data⟩

/-- JS `x || d` on string values: a string is falsy exactly when empty;
`none` stands for `undefined`. -/
def jsOrStr (v : Option String) (d : String) : String :=
  match v with
  | some s => if s = "" then d else s
  | none => d

/-- A JS number: NaN, a signed infinity, or a finite value (modelled
exactly as a rational instead of an IEEE double). -/
inductive JsNum where
  | nan
  | inf (neg : Bool)
  | num (val : ℚ)
deriving DecidableEq

/-- JS `n || 0` on numbers: NaN and zero are falsy (the code's
`parseFloat(value) || 0` fallback). -/
def jsNumOrZero (n : JsNum) : JsNum :=
  match n with
  | JsNum.nan => JsNum.num 0
  | JsNum.num q => if q = 0 then JsNum.num 0 else JsNum.num q
  | JsNum.inf b => JsNum.inf b

/-- Value of a list of decimal digit characters. -/
def digitsToNat (ds : List Char) : Nat :=
  ds.foldl (fun acc c => acc * 10 + (c.toNat - '0'.toNat)) 0

/-- Exponent part after the `e`/`E` of a decimal literal: optional sign then
digits; no digits means the exponent part is not consumed (value 0). -/
def parseExp (cs : List Char) : Int :=
  match cs with
  | '-' :: r => -(digitsToNat (r.takeWhile Char.isDigit) : Int)
  | '+' :: r => (digitsToNat (r.takeWhile Char.isDigit) : Int)
  | r => (digitsToNat (r.takeWhile Char.isDigit) : Int)

/-- JS `parseFloat`: skip leading whitespace, optional sign, then the longest
`StrDecimalLiteral` (digits, optional fraction, optional exponent, or
`Infinity`); anything else is NaN.  Trailing garbage is ignored. -/
def jsParseFloat (s : String) : JsNum :=
  let cs := s.data.dropWhile isJsWs
  let signBody : Bool × List Char :=
    match cs with
    | '-' :: r => (true, r)
    | '+' :: r => (false, r)
    | r => (false, r)
  let neg := signBody.1
  let body := signBody.2
  if ("Infinity".data).isPrefixOf body then JsNum.inf neg
  else
    let intDigits := body.takeWhile Char.isDigit
    let afterInt := body.dropWhile Char.isDigit
    let fracSplit : List Char × List Char :=
      match afterInt with
      | '.' :: r => (r.takeWhile Char.isDigit, r.dropWhile Char.isDigit)
      | r => ([], r)
    let fracDigits := fracSplit.1
    let afterFrac := fracSplit.2
    if intDigits.isEmpty && fracDigits.isEmpty then JsNum.nan
    else
      let e : Int :=
        match afterFrac with
        | 'e' :: r => parseExp r
        | 'E' :: r => parseExp r
        | _ => 0
      let mant : ℚ := (digitsToNat (intDigits ++ fracDigits) : ℚ) / (10 : ℚ) ^ fracDigits.length
      let mag : ℚ := if 0 ≤ e then mant * (10 : ℚ) ^ e.toNat else mant / (10 : ℚ) ^ (-e).toNat
      JsNum.num (if neg then -mag else mag)

/-- The loop shared by the image-dedup sites: walk `l`, keeping each element
not yet in `seen` (and recording it), skipping the rest.  This is JS
`Set` semantics: membership is by value, iteration in insertion order. -/
def addUnique {α : Type} [DecidableEq α] (seen : List α) : List α → List α
  | [] => []
  | img :: rest =>
    if img ∈ seen then addUnique seen rest
    else img :: addUnique (img :: seen) rest

/-- `mergeUniqueImages` (App.js 521-533): seed a `Set` with the existing
images, push each new image not yet seen, and return
`[...existingImages, ...uniqueToAdd]`. -/
def mergeUniqueImages {α : Type} [DecidableEq α] (existingImages newImages : List α) : List α :=
  existingImages ++ addUnique existingImages newImages

/-- One image cell of the form state: a string, or `none` for a non-string
(`undefined`) value. -/
abbrev ImgVal := Option String

/-- `reorderImages` (App.js 582-593): no-op when the indices coincide or
either is negative; otherwise `splice(fromIndex, 1)` the moved element out
(out-of-range yields `undefined`) and `splice(toIndex, 0, moved)` it back in
(insertion position clamps to the array length). -/
def reorderImages (prevImages : List ImgVal) (fromIndex toIndex : Int) : List ImgVal :=
  if fromIndex = toIndex ∨ fromIndex < 0 ∨ toIndex < 0 then prevImages
  else
    let f := fromIndex.toNat
    let t := toIndex.toNat
    let movedImage := prevImages.getD f none
    let rest := prevImages.take f ++ prevImages.drop (f + 1)
    rest.take t ++ movedImage :: rest.drop t

/-- The per-element step of submit-time normalization (App.js 655):
`typeof image === 'string' ? image.trim() : ''`. -/
def jsImageToStr (v : ImgVal) : String :=
  match v with
  | some s => jsTrim s
  | none => ""

/-- Submit-time image normalization (App.js 652-658):
`Array.from(new Set(images.map(trim-or-empty).filter(Boolean)))` — trim each
entry, drop empties, dedup keeping first occurrences in order. -/
def normalizeImages (images : List ImgVal) : List String :=
  addUnique [] ((images.map jsImageToStr).filter (fun s => s != ""))

/-- The payload fields `handleSubmit` (App.js 647-681) computes rather than
copies verbatim from the form: the normalized image list, the derived
primary image `normalizedImages[0] || ''`, and the coerced
`parseFloat(formData.basePrice) || 0`. -/
structure ProductPayload where
  images : List String
  image : String
  basePrice : JsNum
deriving DecidableEq

/-- The computed part of `handleSubmit`'s payload (App.js 652-665). -/
def handleSubmitPayload (formImages : List ImgVal) (basePriceInput : String) : ProductPayload :=
  let normalizedImages := normalizeImages formImages
  { images := normalizedImages
    image := jsOrStr normalizedImages.head? ""
    basePrice := jsNumOrZero (jsParseFloat basePriceInput) }

/-- JS object property read `m[k]`: the value of the first (unique) matching
key, `none` when the key is absent. -/
def jsGet {β : Type} (m : List (String × β)) (k : String) : Option β :=
  (m.find? (fun p => p.1 == k)).map Prod.snd

/-- JS spread-update `{...m, [k]: v}`: an existing key keeps its position and
gets the new value; a fresh key is appended. -/
def jsSetKey {β : Type} (m : List (String × β)) (k : String) (v : β) : List (String × β) :=
  if m.any (fun p => p.1 == k) then m.map (fun p => if p.1 == k then (k, v) else p)
  else m ++ [(k, v)]

/-- `updateExchangeRate` (App.js 683-691), also the inline rate-change
handler of `SettingsView` (App.js 1192-1195):
`{...exchangeRates, [currency]: parseFloat(value) || 0}`. -/
def updateExchangeRate (rates : List (String × JsNum)) (currency value : String) :
    List (String × JsNum) :=
  jsSetKey rates currency (jsNumOrZero (jsParseFloat value))

instance {ε β : Type} [DecidableEq ε] [DecidableEq β] : DecidableEq (Except ε β) := fun a b =>
  match a, b with
  | Except.ok x, Except.ok y =>
    if h : x = y then isTrue (by rw [h]) else isFalse (fun c => h (Except.ok.inj c))
  | Except.error x, Except.error y =>
    if h : x = y then isTrue (by rw [h]) else isFalse (fun c => h (Except.error.inj c))
  | Except.ok _, Except.error _ => isFalse (fun c => Except.noConfusion c)
  | Except.error _, Except.ok _ => isFalse (fun c => Except.noConfusion c)

/-- A file picked in the local-upload input: its declared MIME type and the
outcome of `readFileAsDataUrl` on it (data URL, or a read error). -/
structure LocalFile where
  ftype : String
  readResult : Except String String
deriving DecidableEq

/-- JS `String.prototype.startsWith`. -/
def jsStartsWith (s pre : String) : Bool :=
  pre.data.isPrefixOf s.data

/-- `Promise.all`: the list of results when every promise resolves, otherwise
the first rejection. -/
def promiseAll {ε β : Type} : List (Except ε β) → Except ε (List β)
  | [] => Except.ok []
  | Except.ok b :: rest =>
    match promiseAll rest with
    | Except.ok bs => Except.ok (b :: bs)
    | Except.error e => Except.error e
  | Except.error e :: _ => Except.error e

/-- The component state `handleLocalImageUpload` touches: the image list and
the `imageUploadError` message (`""` when no error is shown). -/
structure UploadState where
  images : List ImgVal
  imageUploadError : String
deriving DecidableEq

/-- `handleLocalImageUpload` (App.js 543-565): empty selection is a no-op; a
batch containing any non-`image/*` file is rejected whole with one message;
otherwise all files are read and merged into the list (a failed read leaves
the list untouched and shows one message). -/
def handleLocalImageUpload (st : UploadState) (files : List LocalFile) : UploadState :=
  if files.isEmpty then st
  else if files.any (fun file => !(jsStartsWith file.ftype "image/")) then
    { st with imageUploadError := "Only image files are allowed." }
  else
    match promiseAll (files.map (fun file => file.readResult)) with
    | Except.ok uploadedImages =>
      { images := mergeUniqueImages st.images (uploadedImages.map some)
        imageUploadError := "" }
    | Except.error _ =>
      { st with imageUploadError := "Unable to process one or more files." }

/-- The authenticated operator profile returned by the server. -/
structure User where
  username : String
  role : String
deriving DecidableEq

/-- The auth-holder state (App.js 16-72): in-memory `user` and `token`
(React state), the persisted `localStorage` token, the `axios` default
`Authorization` header, and the `loading` flag. -/
structure AuthState where
  user : Option User
  token : Option String
  storedToken : Option String
  authHeader : Option String
  loading : Bool
deriving DecidableEq

/-- `logout` (App.js 21-26): remove the persisted token, delete the default
`Authorization` header, null the token and user.  No request is made. -/
def logout (s : AuthState) : AuthState :=
  { s with storedToken := none, authHeader := none, token := none, user := none }

/-- `fetchUser` (App.js 28-38) as a transition on the settled request: on
success store the user; on any error run `logout`; either way clear
`loading`. -/
def fetchUser (s : AuthState) (response : Except (Option String) User) : AuthState :=
  match response with
  | Except.ok u => { s with user := some u, loading := false }
  | Except.error _ => { logout s with loading := false }

/-- Result value of `login`. -/
inductive LoginResult where
  | success
  | failure (message : String)
deriving DecidableEq

/-- `login` (App.js 49-64) as a transition on the settled request: on success
persist the token, set the bearer header, store token and user, return
success; on error change nothing and return the failure with
`error.response?.data?.message || 'Login failed'` (the error carries the
server message when one exists). -/
def login (s : AuthState) (response : Except (Option String) (String × User)) :
    AuthState × LoginResult :=
  match response with
  | Except.ok (newToken, userData) =>
    ({ s with storedToken := some newToken
              authHeader := some ("Bearer " ++ newToken)
              token := some newToken
              user := some userData }, LoginResult.success)
  | Except.error err => (s, LoginResult.failure (jsOrStr err "Login failed"))

/-- Modelled from the spec: the display-time currency conversion
(`displayPrice`) runs in the customer storefront, which is not part of this
repository; per spec §4.3 and §8, `displayPrice(product, code) =
product.basePrice * product.exchangeRates[code]`, and a code missing from
the rate map is "unavailable" (`none`), with no fallback. -/
def displayPrice (basePrice : ℚ) (exchangeRates : List (String × ℚ)) (code : String) :
    Option ℚ :=
  match jsGet exchangeRates code with
  | some rate => some (basePrice * rate)
  | none => none

/-! ### Helper lemmas -/

theorem dropWhile_idem {α : Type} (p : α → Bool) (l : List α) :
    List.dropWhile p (List.dropWhile p l) = List.dropWhile p l := by
  induction l with
  | nil => rfl
  | cons a t ih =>
    by_cases h : p a = true
    · simpa [List.dropWhile_cons, h] using ih
    · simp [List.dropWhile_cons, h]

theorem dropWhile_self_left {α : Type} (p : α → Bool) (l1 l2 : List α)
    (h : List.dropWhile p (l1 ++ l2) = l1 ++ l2) : List.dropWhile p l1 = l1 := by
  cases l1 with
  | nil => rfl
  | cons a t =>
    by_cases hp : p a = true
    · exfalso
      rw [List.cons_append, List.dropWhile_cons, if_pos hp] at h
      have hle := (List.dropWhile_sublist (l := t ++ l2) p).length_le
      rw [h] at hle
      simp [List.length_append] at hle
    · rw [List.dropWhile_cons, if_neg hp]

theorem trimEndList_append (x : List Char) :
    x = trimEndList x ++ (x.reverse.takeWhile isJsWs).reverse := by
  conv_lhs => rw [← List.reverse_reverse x,
    ← List.takeWhile_append_dropWhile isJsWs x.reverse]
  rw [List.reverse_append]
  rfl

theorem trimEndList_idem (x : List Char) : trimEndList (trimEndList x) = trimEndList x := by
  unfold trimEndList
  rw [List.reverse_reverse, dropWhile_idem]

theorem dropWhile_trimEndList (x : List Char) (h : List.dropWhile isJsWs x = x) :
    List.dropWhile isJsWs (trimEndList x) = trimEndList x := by
  apply dropWhile_self_left isJsWs (trimEndList x) (x.reverse.takeWhile isJsWs).reverse
  rw [← trimEndList_append x]
  exact h

theorem trimList_idem (l : List Char) : trimList (trimList l) = trimList l := by
  unfold trimList
  rw [dropWhile_trimEndList (List.dropWhile isJsWs l) (dropWhile_idem isJsWs l)]
  exact trimEndList_idem _

theorem jsTrim_idem (s : String) : jsTrim (jsTrim s) = jsTrim s :=
  congrArg String.mk (trimList_idem s.data)

theorem addUnique_sublist {α : Type} [DecidableEq α] (seen l : List α) :
    (addUnique seen l).Sublist l := by
  induction l generalizing seen with
  | nil => simp [addUnique]
  | cons a t ih =>
    rw [addUnique]
    split
    · exact (ih seen).cons a
    · exact (ih (a :: seen)).cons₂ a

theorem mem_addUnique {α : Type} [DecidableEq α] (seen l : List α) (a : α) :
    a ∈ addUnique seen l ↔ a ∈ l ∧ a ∉ seen := by
  induction l generalizing seen with
  | nil => simp [addUnique]
  | cons b t ih =>
    rw [addUnique]
    split
    · rename_i hb
      rw [ih seen]
      simp only [List.mem_cons]
      constructor
      · rintro ⟨h1, h2⟩
        exact ⟨Or.inr h1, h2⟩
      · rintro ⟨rfl | h1, h2⟩
        · exact absurd hb h2
        · exact ⟨h1, h2⟩
    · rename_i hb
      simp only [List.mem_cons, ih (b :: seen)]
      constructor
      · rintro (rfl | ⟨h1, h2⟩)
        · exact ⟨Or.inl rfl, hb⟩
        · exact ⟨Or.inr h1, fun hs => h2 (Or.inr hs)⟩
      · rintro ⟨rfl | h1, h2⟩
        · exact Or.inl rfl
        · by_cases hba : a = b
          · exact Or.inl hba
          · exact Or.inr ⟨h1, fun hs => hs.elim hba h2⟩

theorem addUnique_nodup {α : Type} [DecidableEq α] (seen l : List α) :
    (addUnique seen l).Nodup := by
  induction l generalizing seen with
  | nil => simp [addUnique]
  | cons b t ih =>
    rw [addUnique]
    split
    · exact ih seen
    · refine List.Nodup.cons ?_ (ih (b :: seen))
      intro hmem
      exact ((mem_addUnique (b :: seen) t b).mp hmem).2 (List.mem_cons_self b seen)

theorem addUnique_eq_self {α : Type} [DecidableEq α] (seen l : List α)
    (hn : l.Nodup) (hd : ∀ a ∈ l, a ∉ seen) : addUnique seen l = l := by
  induction l generalizing seen with
  | nil => rfl
  | cons b t ih =>
    rw [addUnique, if_neg (hd b (List.mem_cons_self b t))]
    congr 1
    refine ih (b :: seen) (List.Nodup.of_cons hn) ?_
    intro a ha hmem
    rcases List.mem_cons.mp hmem with rfl | hs
    · exact (List.nodup_cons.mp hn).1 ha
    · exact hd a (List.mem_cons_of_mem b ha) hs

theorem getD_append_cons {β : Type} (d x : β) (l1 l2 : List β) :
    (l1 ++ x :: l2).getD l1.length d = x := by
  induction l1 with
  | nil => rfl
  | cons a t ih => simpa using ih

theorem eraseIdx_append_cons {β : Type} (x : β) (l1 l2 : List β) :
    (l1 ++ x :: l2).eraseIdx l1.length = l1 ++ l2 := by
  induction l1 with
  | nil => rfl
  | cons a t ih => simpa using ih

theorem eraseIdx_take_drop {β : Type} : ∀ (l : List β) (n : Nat),
    l.eraseIdx n = l.take n ++ l.drop (n + 1)
  | [], _ => by simp
  | _ :: _, 0 => rfl
  | a :: t, n + 1 => by
    rw [List.eraseIdx_cons_succ, List.take_succ_cons, List.drop_succ_cons,
      eraseIdx_take_drop t n, List.cons_append]

theorem perm_getD_take_drop {β : Type} (d : β) :
    ∀ (l : List β) (f : Nat), f < l.length →
      l.Perm (l.getD f d :: (l.take f ++ l.drop (f + 1))) := by
  intro l
  induction l with
  | nil => intro f h; simp at h
  | cons a t ih =>
    intro f h
    cases f with
    | zero => simp
    | succ f =>
      have h2 : f < t.length := by simpa using h
      have ih2 := ih f h2
      simpa using (ih2.cons a).trans (List.Perm.swap _ _ _)

theorem find?_map_setKey {β : Type} (k : String) (v : β) :
    ∀ (m : List (String × β)), m.any (fun p => p.1 == k) = true →
      (m.map (fun p => if p.1 == k then (k, v) else p)).find? (fun p => p.1 == k) =
        some (k, v) := by
  intro m
  induction m with
  | nil => intro h; simp at h
  | cons a t ih =>
    intro h
    by_cases hk : (a.1 == k) = true
    · rw [List.map_cons, if_pos hk]
      exact List.find?_cons_of_pos _ (by simp)
    · rw [List.map_cons, if_neg hk,
        List.find?_cons_of_neg (p := fun q : String × β => q.1 == k) _ (by simpa using hk)]
      refine ih ?_
      rw [List.any_cons, Bool.eq_false_iff.mpr hk, Bool.false_or] at h
      exact h

theorem find?_append_new {β : Type} (k : String) (v : β) :
    ∀ (m : List (String × β)), m.any (fun p => p.1 == k) = false →
      (m ++ [(k, v)]).find? (fun p => p.1 == k) = some (k, v) := by
  intro m
  induction m with
  | nil => intro _; exact List.find?_cons_of_pos _ (by simp)
  | cons a t ih =>
    intro h
    rw [List.any_cons, Bool.or_eq_false_iff] at h
    rw [List.cons_append,
      List.find?_cons_of_neg (p := fun q : String × β => q.1 == k) _ (by simp [h.1])]
    exact ih h.2

theorem jsGet_jsSetKey {β : Type} (m : List (String × β)) (k : String) (v : β) :
    jsGet (jsSetKey m k v) k = some v := by
  unfold jsGet jsSetKey
  by_cases h : m.any (fun p => p.1 == k) = true
  · rw [if_pos h, find?_map_setKey k v m h]
    rfl
  · rw [if_neg h, find?_append_new k v m (Bool.eq_false_iff.mpr h)]
    rfl

theorem promiseAll_map_ok {ε β : Type} : ∀ (l : List β),
    promiseAll (l.map (Except.ok : β → Except ε β)) = Except.ok l := by
  intro l
  induction l with
  | nil => rfl
  | cons b t ih => rw [List.map_cons, promiseAll, ih]

theorem mem_normalizeImages_ne_empty (l : List ImgVal) (v : String)
    (h : v ∈ normalizeImages l) : v ≠ "" := by
  have h2 := (mem_addUnique [] _ v).mp h
  have h3 := (List.mem_filter.mp h2.1).2
  simpa using h3

theorem mem_normalizeImages_trimmed (l : List ImgVal) (v : String)
    (h : v ∈ normalizeImages l) : jsTrim v = v := by
  have h2 := (mem_addUnique [] _ v).mp h
  have h3 := (List.mem_filter.mp h2.1).1
  rcases List.mem_map.mp h3 with ⟨w, _, rfl⟩
  cases w with
  | some s => exact jsTrim_idem s
  | none => decide

theorem normalizeImages_nodup (l : List ImgVal) : (normalizeImages l).Nodup :=
  addUnique_nodup [] _

theorem normalizeImages_idem (l : List ImgVal) :
    normalizeImages ((normalizeImages l).map some) = normalizeImages l := by
  have hmap : ((normalizeImages l).map some).map jsImageToStr = normalizeImages l := by
    rw [List.map_map]
    have hc : ∀ a ∈ normalizeImages l, (jsImageToStr ∘ some) a = id a := fun a ha =>
      mem_normalizeImages_trimmed l a ha
    rw [List.map_congr_left hc, List.map_id]
  have hfil : (normalizeImages l).filter (fun s => s != "") = normalizeImages l :=
    List.filter_eq_self.mpr fun a ha => by
      simpa using mem_normalizeImages_ne_empty l a ha
  conv_lhs => rw [normalizeImages]
  rw [hmap, hfil]
  exact addUnique_eq_self [] _ (normalizeImages_nodup l) (by simp)

theorem reorder_core {β : Type} (d : β) (L : List β) (f t : Nat)
    (hf : f < L.length) (ht : t < L.length) :
    ((L.take f ++ L.drop (f + 1)).take t ++
        L.getD f d :: (L.take f ++ L.drop (f + 1)).drop t).Perm L ∧
    ((L.take f ++ L.drop (f + 1)).take t ++
        L.getD f d :: (L.take f ++ L.drop (f + 1)).drop t).getD t d = L.getD f d ∧
    ((L.take f ++ L.drop (f + 1)).take t ++
        L.getD f d :: (L.take f ++ L.drop (f + 1)).drop t).eraseIdx t = L.eraseIdx f := by
  set rest := L.take f ++ L.drop (f + 1) with hrest
  have hlen : rest.length = L.length - 1 := by
    rw [hrest, List.length_append, List.length_take, List.length_drop]
    omega
  have htake : (rest.take t).length = t := by
    rw [List.length_take]
    omega
  have h1 : (rest.take t ++ L.getD f d :: rest.drop t).getD t d = L.getD f d := by
    have h := getD_append_cons d (L.getD f d) (rest.take t) (rest.drop t)
    rwa [htake] at h
  have h2 : (rest.take t ++ L.getD f d :: rest.drop t).eraseIdx t = L.eraseIdx f := by
    have h := eraseIdx_append_cons (L.getD f d) (rest.take t) (rest.drop t)
    rw [htake, List.take_append_drop] at h
    rw [h, hrest, eraseIdx_take_drop]
  have h3 : (rest.take t ++ L.getD f d :: rest.drop t).Perm L := by
    have hp1 : (rest.take t ++ L.getD f d :: rest.drop t).Perm
        (L.getD f d :: (rest.take t ++ rest.drop t)) := List.perm_middle
    rw [List.take_append_drop] at hp1
    have hp2 := perm_getD_take_drop d L f hf
    rw [← hrest] at hp2
    exact hp1.trans hp2.symm
  exact ⟨h3, h1, h2⟩

theorem jsGet_singleton {β : Type} (k : String) (v : β) : jsGet [(k, v)] k = some v := by
  unfold jsGet
  rw [List.find?_cons_of_pos _ (by simp)]
  rfl

/-! ### Claims -/

/-- C1 counterexample: the claim says any out-of-range index makes `reorder`
a no-op, but with `j = 2` out of range for a two-element list the splice
insertion clamps to the end and the list changes. -/
theorem reorderImages_oob_counterexample :
    ¬ reorderImages [some "a", some "b"] 0 2 = [some "a", some "b"] := by decide

/-- C1 (amended): `reorderImages L i j` with non-negative in-range distinct
`i, j` yields a permutation of `L` whose entry at position `j` is the entry
of `L` at position `i` and which, with position `j` erased, equals `L` with
position `i` erased (all other elements keep their relative order);
`reorderImages L i i = L`; and a negative `i` or `j` is a no-op.
Out-of-range non-negative indices are not in general no-ops. -/
theorem reorderImages_spec (L : List ImgVal) (i j : Int) :
    ((0 ≤ i ∧ 0 ≤ j ∧ i.toNat < L.length ∧ j.toNat < L.length ∧ i ≠ j) →
      ((reorderImages L i j).Perm L ∧
       (reorderImages L i j).getD j.toNat none = L.getD i.toNat none ∧
       (reorderImages L i j).eraseIdx j.toNat = L.eraseIdx i.toNat)) ∧
    reorderImages L i i = L ∧
    ((i < 0 ∨ j < 0) → reorderImages L i j = L) := by
  refine ⟨?_, ?_, ?_⟩
  · rintro ⟨hi, hj, hf, ht, hne⟩
    have hcond : ¬(i = j ∨ i < 0 ∨ j < 0) := by
      push_neg
      exact ⟨hne, hi, hj⟩
    unfold reorderImages
    rw [if_neg hcond]
    exact reorder_core none L i.toNat j.toNat hf ht
  · unfold reorderImages
    rw [if_pos (Or.inl rfl)]
  · intro h
    unfold reorderImages
    rw [if_pos (Or.inr h)]

/-- Witness for `reorderImages_spec` at `L = [a, b, c]`, `i = 0`, `j = 2`. -/
theorem reorderImages_spec_witness :
    (reorderImages [some "a", some "b", some "c"] 0 2).Perm
      [some "a", some "b", some "c"] ∧
    (reorderImages [some "a", some "b", some "c"] 0 2).getD 2 none =
      [some "a", some "b", some "c"].getD 0 none ∧
    (reorderImages [some "a", some "b", some "c"] 0 2).eraseIdx 2 =
      [some "a", some "b", some "c"].eraseIdx 0 :=
  (reorderImages_spec [some "a", some "b", some "c"] 0 2).1 (by decide)

/-- C2 counterexample: when the existing list already holds duplicates the
merge result keeps them, so "the resulting list contains no duplicate
entries" fails for arbitrary `L`. -/
theorem mergeUniqueImages_dup_counterexample :
    ¬ (mergeUniqueImages ["a", "a"] ([] : List String)).Nodup := by decide

/-- C2 (amended): `mergeUniqueImages L B` is `L` followed by exactly the
elements of `B` not already in `L`, each at most once, in `B`'s relative
order; the result is duplicate-free provided `L` itself is; and the spec's
example holds. -/
theorem mergeUniqueImages_spec (L B : List String) :
    (∃ A, mergeUniqueImages L B = L ++ A ∧ A.Sublist B ∧ A.Nodup ∧
      (∀ a, a ∈ A ↔ (a ∈ B ∧ a ∉ L))) ∧
    (L.Nodup → (mergeUniqueImages L B).Nodup) ∧
    mergeUniqueImages ["a", "b"] ["b", "c"] = ["a", "b", "c"] := by
  refine ⟨⟨addUnique L B, rfl, addUnique_sublist L B, addUnique_nodup L B,
    fun a => mem_addUnique L B a⟩, ?_, by decide⟩
  intro hL
  rw [mergeUniqueImages, List.nodup_append]
  refine ⟨hL, addUnique_nodup L B, ?_⟩
  intro a haL haA
  exact ((mem_addUnique L B a).mp haA).2 haL

/-- Witness for `mergeUniqueImages_spec` at the spec's own example. -/
theorem mergeUniqueImages_spec_witness :
    (mergeUniqueImages ["a", "b"] ["b", "c"]).Nodup :=
  (mergeUniqueImages_spec ["a", "b"] ["b", "c"]).2.1 (by decide)

/-- C3: submit-time normalization is idempotent on its own output, never
emits an empty-string entry, and maps `["x", " x", "", "y"]` to
`["x", "y"]`. -/
theorem normalizeImages_spec (l : List ImgVal) :
    normalizeImages ((normalizeImages l).map some) = normalizeImages l ∧
    "" ∉ normalizeImages l ∧
    normalizeImages [some "x", some " x", some "", some "y"] = ["x", "y"] :=
  ⟨normalizeImages_idem l, fun h => mem_normalizeImages_ne_empty l "" h rfl, by decide⟩

/-- C4: the submitted payload's `images` field is the normalized list, and
its primary-image field is that list's first entry whenever the list is
non-empty. -/
theorem handleSubmitPayload_spec (formImages : List ImgVal) (bp : String) :
    (handleSubmitPayload formImages bp).images = normalizeImages formImages ∧
    (normalizeImages formImages ≠ [] →
      (handleSubmitPayload formImages bp).image = (normalizeImages formImages).headD "") := by
  refine ⟨rfl, ?_⟩
  intro hne
  cases hhead : normalizeImages formImages with
  | nil => exact absurd hhead hne
  | cons a t =>
    have ha : a ∈ normalizeImages formImages := by
      rw [hhead]
      exact List.mem_cons_self a t
    have hane := mem_normalizeImages_ne_empty _ a ha
    show jsOrStr (normalizeImages formImages).head? "" = _
    rw [hhead]
    simp [jsOrStr, hane]

/-- Witness for `handleSubmitPayload_spec` at a one-image form. -/
theorem handleSubmitPayload_spec_witness :
    (handleSubmitPayload [some "a"] "1").image = (normalizeImages [some "a"]).headD "" :=
  (handleSubmitPayload_spec [some "a"] "1").2 (by decide)

/-- C5: every error outcome of `fetchUser` leaves the session fields exactly
as an explicit `logout` does — user null, in-memory token null, persisted
token cleared, `Authorization` default header removed; there is no retry and
no distinct error state in the model. -/
theorem fetchUser_error_spec (s : AuthState) (e : Option String) :
    (fetchUser s (Except.error e)).user = (logout s).user ∧
    (fetchUser s (Except.error e)).token = (logout s).token ∧
    (fetchUser s (Except.error e)).storedToken = (logout s).storedToken ∧
    (fetchUser s (Except.error e)).authHeader = (logout s).authHeader :=
  ⟨rfl, rfl, rfl, rfl⟩

/-- C6: `logout` clears the persisted token, the default `Authorization`
header, the in-memory token and the user; it is idempotent; after `logout`
the header carried by subsequent requests is absent, and after a successful
`login` it is the bearer token. -/
theorem logout_spec (s : AuthState) (tok : String) (u : User) :
    (logout s).storedToken = none ∧
    (logout s).authHeader = none ∧
    (logout s).user = none ∧
    (logout s).token = none ∧
    logout (logout s) = logout s ∧
    (login s (Except.ok (tok, u))).1.authHeader = some ("Bearer " ++ tok) :=
  ⟨rfl, rfl, rfl, rfl, rfl, rfl⟩

/-- C7: an input `parseFloat` cannot parse is coerced to exactly 0 — in the
exchange-rate change handlers and for the submitted base price. -/
theorem parseFailure_zero_spec (rates : List (String × JsNum)) (c v : String)
    (h : jsParseFloat v = JsNum.nan) :
    jsGet (updateExchangeRate rates c v) c = some (JsNum.num 0) ∧
    ∀ formImages, (handleSubmitPayload formImages v).basePrice = JsNum.num 0 := by
  constructor
  · rw [updateExchangeRate, h]
    exact jsGet_jsSetKey rates c (JsNum.num 0)
  · intro formImages
    show jsNumOrZero (jsParseFloat v) = JsNum.num 0
    rw [h]
    rfl

/-- Witness for `parseFailure_zero_spec` at the non-numeric input `"abc"`. -/
theorem parseFailure_zero_witness :
    jsGet (updateExchangeRate [] "USD" "abc") "USD" = some (JsNum.num 0) ∧
    (handleSubmitPayload [] "abc").basePrice = JsNum.num 0 :=
  ⟨(parseFailure_zero_spec [] "USD" "abc" (by decide)).1,
   (parseFailure_zero_spec [] "USD" "abc" (by decide)).2 []⟩

/-- C8: a local-upload batch containing any file whose declared type is not
`image/*` is rejected atomically — the image list is unchanged and the one
error message is set; a non-empty all-image batch whose reads all succeed is
merged: existing entries keep their order, values already present are
skipped, and new unique values are appended in file-selection order. -/
theorem handleLocalImageUpload_spec (st : UploadState) (files : List LocalFile) :
    ((∃ f ∈ files, jsStartsWith f.ftype "image/" = false) →
      (handleLocalImageUpload st files).images = st.images ∧
      (handleLocalImageUpload st files).imageUploadError =
        "Only image files are allowed.") ∧
    (∀ urls : List String, files ≠ [] →
      (∀ f ∈ files, jsStartsWith f.ftype "image/" = true) →
      files.map (fun f => f.readResult) = urls.map Except.ok →
      (handleLocalImageUpload st files).images =
        mergeUniqueImages st.images (urls.map some) ∧
      (∃ A, mergeUniqueImages st.images (urls.map some) = st.images ++ A ∧
        A.Sublist (urls.map some) ∧
        (∀ a, a ∈ A ↔ (a ∈ urls.map some ∧ a ∉ st.images)))) := by
  constructor
  · rintro ⟨f, hf, hft⟩
    have hne : files.isEmpty = false := by
      cases files with
      | nil => cases hf
      | cons _ _ => rfl
    have hany : files.any (fun file => !(jsStartsWith file.ftype "image/")) = true :=
      List.any_eq_true.mpr ⟨f, hf, by rw [hft]; rfl⟩
    unfold handleLocalImageUpload
    rw [if_neg (by simp [hne]), if_pos hany]
    exact ⟨rfl, rfl⟩
  · intro urls hne hall heq
    have hisEmpty : files.isEmpty = false := by
      cases files with
      | nil => exact absurd rfl hne
      | cons _ _ => rfl
    have hany : files.any (fun file => !(jsStartsWith file.ftype "image/")) = false := by
      rw [List.any_eq_false]
      intro f hf
      simp [hall f hf]
    unfold handleLocalImageUpload
    rw [if_neg (by simp [hisEmpty]), if_neg (by simp [hany]), heq, promiseAll_map_ok]
    exact ⟨rfl, ⟨addUnique st.images (urls.map some), rfl,
      addUnique_sublist _ _, fun a => mem_addUnique _ _ a⟩⟩

/-- Witness for `handleLocalImageUpload_spec`: one rejected mixed batch and
one accepted all-image batch. -/
theorem handleLocalImageUpload_spec_witness :
    ((handleLocalImageUpload ⟨[some "a"], ""⟩
        [⟨"text/plain", Except.ok "u"⟩]).images = [some "a"] ∧
     (handleLocalImageUpload ⟨[some "a"], ""⟩
        [⟨"text/plain", Except.ok "u"⟩]).imageUploadError =
       "Only image files are allowed.") ∧
    (handleLocalImageUpload ⟨[some "a"], ""⟩
        [⟨"image/png", Except.ok "a"⟩, ⟨"image/png", Except.ok "b"⟩]).images =
      mergeUniqueImages [some "a"] (["a", "b"].map some) :=
  ⟨(handleLocalImageUpload_spec ⟨[some "a"], ""⟩ [⟨"text/plain", Except.ok "u"⟩]).1
      ⟨⟨"text/plain", Except.ok "u"⟩, by decide, by decide⟩,
   ((handleLocalImageUpload_spec ⟨[some "a"], ""⟩
        [⟨"image/png", Except.ok "a"⟩, ⟨"image/png", Except.ok "b"⟩]).2 ["a", "b"]
      (by decide) (by decide) (by decide)).1⟩

/-- C9 (modelled from the spec — the conversion runs in the storefront, not
in this repository): the displayed price is the base price times the
looked-up rate, `displayPrice(599, INR ↦ 82.5) = 49417.5`, and a code
missing from the map is unavailable (`none`), never any numeric fallback. -/
theorem displayPrice_spec (basePrice : ℚ) (rates : List (String × ℚ)) (code : String) :
    (∀ r, jsGet rates code = some r →
      displayPrice basePrice rates code = some (basePrice * r)) ∧
    (jsGet rates code = none →
      displayPrice basePrice rates code = none ∧
      ∀ q, displayPrice basePrice rates code ≠ some q) ∧
    displayPrice 599 [("INR", 82.5)] "INR" = some 49417.5 := by
  refine ⟨?_, ?_, ?_⟩
  · intro r hr
    unfold displayPrice
    rw [hr]
  · intro hn
    unfold displayPrice
    rw [hn]
    exact ⟨rfl, fun q h => Option.noConfusion h⟩
  · unfold displayPrice
    rw [jsGet_singleton "INR" (82.5 : ℚ)]
    norm_num

/-- Witness for `displayPrice_spec`: the spec's INR example and a missing
code. -/
theorem displayPrice_spec_witness :
    displayPrice 599 [("INR", 82.5)] "INR" = some ((599 : ℚ) * 82.5) ∧
    displayPrice 599 [] "USD" = none :=
  ⟨(displayPrice_spec 599 [("INR", 82.5)] "INR").1 82.5 (jsGet_singleton "INR" (82.5 : ℚ)),
   ((displayPrice_spec 599 [] "USD").2.1 rfl).1⟩

/-- C10: a failed `login` leaves the auth state (token, persisted token,
header, user) entirely unchanged and returns a failure carrying the
server-supplied message when one is present and non-empty, otherwise the
generic "Login failed". -/
theorem login_failure_spec (s : AuthState) (m : Option String) :
    (login s (Except.error m)).1 = s ∧
    ((∃ msg, m = some msg ∧ msg ≠ "" ∧
        (login s (Except.error m)).2 = LoginResult.failure msg) ∨
      (login s (Except.error m)).2 = LoginResult.failure "Login failed") := by
  refine ⟨rfl, ?_⟩
  cases m with
  | none => exact Or.inr rfl
  | some msg =>
    by_cases h : msg = ""
    · subst h
      exact Or.inr (by simp [login, jsOrStr])
    · exact Or.inl ⟨msg, rfl, h, by simp [login, jsOrStr, h]⟩

end DAdmin
